import Mathlib

/-!
Verification development for an image-captioning pipeline
(`data_loader.py`, `main.py`).  Text is modelled as `List Char`
(ASCII semantics for the character classes the corpus uses);
captions files as lists of lines; the Keras tokenizer as an
association list from words to positive indices; the neural decoder
as an opaque function from (image embedding, padded index sequence)
to the argmax index of its predicted distribution.
-/

set_option autoImplicit false

namespace ImgCap

/-- Whitespace characters recognised by Python's no-argument `str.split`
and by `str.strip` (space, tab, newline, vertical tab, form feed,
carriage return). -/
def isWs (c : Char) : Bool :=
  c.toNat = 32 || c.toNat = 9 || c.toNat = 10 ||
  c.toNat = 11 || c.toNat = 12 || c.toNat = 13

/-- Characters of Python's `string.punctuation`
(ASCII 33-47, 58-64, 91-96, 123-126), the deletion table built by
`str.maketrans("", "", string.punctuation)` in `clean_descriptions`. -/
def isPunct (c : Char) : Bool :=
  (33 ≤ c.toNat && c.toNat ≤ 47) || (58 ≤ c.toNat && c.toNat ≤ 64) ||
  (91 ≤ c.toNat && c.toNat ≤ 96) || (123 ≤ c.toNat && c.toNat ≤ 126)

/-- ASCII model of Python `str.lower` on a character. -/
def pyLower (c : Char) : Char :=
  if 65 ≤ c.toNat && c.toNat ≤ 90 then Char.ofNat (c.toNat + 32) else c

/-- ASCII letter, the character class of Python `str.isalpha`. -/
def isAlphaCh (c : Char) : Bool :=
  (97 ≤ c.toNat && c.toNat ≤ 122) || (65 ≤ c.toNat && c.toNat ≤ 90)

/-- Python `str.isalpha`: nonempty and every character alphabetic. -/
def pyIsAlpha (w : List Char) : Bool :=
  !w.isEmpty && w.all isAlphaCh

/-- Helper for `splitWs`: accumulates the current word (reversed). -/
def splitWsAux : List Char → List Char → List (List Char)
  | [], acc => if acc = [] then [] else [acc.reverse]
  | c :: cs, acc =>
    if isWs c then
      if acc = [] then splitWsAux cs [] else acc.reverse :: splitWsAux cs []
    else
      splitWsAux cs (c :: acc)

/-- Python `str.split()` with no argument: split on runs of whitespace,
discarding empty fragments. -/
def splitWs (l : List Char) : List (List Char) := splitWsAux l []

/-- Python `' '.join`. -/
def joinWords : List (List Char) → List Char
  | [] => []
  | [w] => w
  | w :: v :: ws => w ++ ' ' :: joinWords (v :: ws)

/-- Python `str.strip()`: drop leading and trailing whitespace. -/
def pyStrip (l : List Char) : List Char :=
  ((l.dropWhile isWs).reverse.dropWhile isWs).reverse

/-- Word list built inside `DataLoader.clean_descriptions` for one caption:
split into words, lowercase each word, delete punctuation characters,
keep only fully-alphabetic words. -/
def cleanWords (cs : List Char) : List (List Char) :=
  (((splitWs cs).map (List.map pyLower)).map
    (List.filter (fun c => !isPunct c))).filter pyIsAlpha

/-- The normalization of one caption in `DataLoader.clean_descriptions`:
the cleaned words rejoined with single spaces (`' '.join(desc)`). -/
def cleanCaption (cs : List Char) : List Char :=
  joinWords (cleanWords cs)

/-- Model of `DataLoader.clean_descriptions`: builds a new mapping applying
`cleanCaption` to every caption of every image. -/
def cleanDescriptions (d : List (List Char × List (List Char))) :
    List (List Char × List (List Char)) :=
  d.map (fun p => (p.1, p.2.map cleanCaption))

/-- Framing of one caption in `descriptions_to_lines`:
the concatenation startseq-space-caption-space-endseq. -/
def frameLine (desc : List Char) : List Char :=
  "startseq ".data ++ desc ++ " endseq".data

/-- Model of `DataLoader.descriptions_to_lines`: all captions of all images,
each framed with the boundary markers, in mapping order. -/
def descriptionsToLines (d : List (List Char × List (List Char))) :
    List (List Char) :=
  d.flatMap (fun p => p.2.map frameLine)

/-- Adding one word to the vocabulary set (`vocabulary.add(word)`);
the set is modelled as a duplicate-free-by-construction list. -/
def vocabAdd (acc : List (List Char)) (w : List Char) : List (List Char) :=
  if w ∈ acc then acc else acc ++ [w]

/-- Model of `DataLoader.to_vocabulary`: the set of all words occurring in the
boundary-framed caption lines. -/
def toVocabulary (d : List (List Char × List (List Char))) : List (List Char) :=
  (descriptionsToLines d).foldl (fun acc line => (splitWs line).foldl vocabAdd acc) []

/-- Model of `DataLoader.max_len`: the maximum word count over all framed caption
lines, or 0 when there are none. -/
def maxLen (d : List (List Char × List (List Char))) : Nat :=
  let lines := descriptionsToLines d
  if lines.isEmpty then 0
  else (lines.map (fun l => (splitWs l).length)).foldl Nat.max 0

/-- Python `line.split(",", 1)` restricted to the split-succeeded case:
the part before the first comma and the whole remainder after it. -/
def splitFirstComma (l : List Char) : Option (List Char × List Char) :=
  if ',' ∈ l then some (l.takeWhile (fun c => c ≠ ','), (l.dropWhile (fun c => c ≠ ',')).tail)
  else none

/-- Per-line parsing in `DataLoader.load_descriptions`: strip the line,
split at the first comma, strip both parts; `none` when the line does not
split into at least two parts. -/
def processLine (l : List Char) : Option (List Char × List Char) :=
  match splitFirstComma (pyStrip l) with
  | none => none
  | some (a, b) => some (pyStrip a, pyStrip b)

/-- First-match association-list lookup (Python dict access by key). -/
def alookup {β : Type _} (l : List (List Char × β)) (k : List Char) : Option β :=
  (l.find? (fun p => p.1 = k)).map (fun p => p.2)

/-- Python `mapping[image_id].append(description)` with creation of the key on
first use, keeping dict insertion order. -/
def insertAppend (m : List (List Char × List (List Char))) (k d : List Char) :
    List (List Char × List (List Char)) :=
  if (alookup m k).isSome then
    m.map (fun p => if p.1 = k then (p.1, p.2 ++ [d]) else p)
  else m ++ [(k, [d])]

/-- One loop iteration of `DataLoader.load_descriptions`: malformed lines
and lines whose image file is absent from the images directory are
skipped; otherwise the caption is appended under its image id. -/
def loadStep (existing : List (List Char)) (m : List (List Char × List (List Char)))
    (l : List Char) : List (List Char × List (List Char)) :=
  match processLine l with
  | none => m
  | some (imageId, desc) => if imageId ∈ existing then insertAppend m imageId desc else m

/-- Model of `DataLoader.load_descriptions`.  Here `file` is `none` when the captions
file is missing (`FileNotFoundError`): the result is the empty mapping and
the `Bool` records that the error diagnostic was printed.  Otherwise the
header line is skipped and the remaining lines are folded with `loadStep`. -/
def loadDescriptions (file : Option (List (List Char)))
    (existing : List (List Char)) :
    List (List Char × List (List Char)) × Bool :=
  match file with
  | none => ([], true)
  | some lines => ((lines.drop 1).foldl (loadStep existing) [], false)

/-- Keras `tokenizer.texts_to_sequences` on one (already normalized)
caption line: split into words and map each through the fitted word
index, dropping out-of-vocabulary words. -/
def encodeCaption (tok : List (List Char × Nat)) (line : List Char) : List Nat :=
  (splitWs line).filterMap (alookup tok)

/-- Keras `pad_sequences([s], maxlen=m)[0]` with the default settings of
`main.py`: left-pad with the padding index 0, left-truncate to length m. -/
def padSequence (m : Nat) (s : List Nat) : List Nat :=
  if m ≤ s.length then s.drop (s.length - m)
  else List.replicate (m - s.length) 0 ++ s

/-- Keras `to_categorical([k], num_classes=v)[0]`: the one-hot vector of
length v with a single 1 at position k. -/
def oneHot (v k : Nat) : List Nat :=
  (List.range v).map (fun j => if j = k then 1 else 0)

/-- The triples emitted by `data_generator` in `main.py` for one framed
caption line of one image: encode the line, and for every prefix length
i from 1 to sequence length - 1 emit (image embedding, left-padded
prefix, one-hot of the token at position i). -/
def captionTriples {α : Type _} (emb : α) (tok : List (List Char × Nat))
    (maxLength vocabSize : Nat) (line : List Char) :
    List (α × List Nat × List Nat) :=
  let seq := encodeCaption tok line
  (List.range' 1 (seq.length - 1)).map
    (fun i => (emb, padSequence maxLength (seq.take i), oneHot vocabSize (seq.getD i 0)))

/-- Model of `filtered_descriptions_for_generator` in `train_model`: keep only
images whose id has a cached feature vector, and replace each image's
captions by its framed caption lines. -/
def filteredForGenerator {α : Type _} (cleaned : List (List Char × List (List Char)))
    (features : List (List Char × α)) :
    List (List Char × List (List Char)) :=
  (cleaned.filter (fun p => (alookup features p.1).isSome)).map
    (fun p => (p.1, descriptionsToLines [p]))

/-- All training triples produced by one pass of `data_generator` over the
filtered mapping (an image id absent from the feature cache contributes
nothing; inside `train_model` the filtering guarantees it is present). -/
def dataGeneratorAllTriples {α : Type _}
    (filtered : List (List Char × List (List Char)))
    (features : List (List Char × α)) (tok : List (List Char × Nat))
    (maxLength vocabSize : Nat) : List (α × List Nat × List Nat) :=
  filtered.flatMap (fun p =>
    match alookup features p.1 with
    | none => []
    | some emb => p.2.flatMap (captionTriples emb tok maxLength vocabSize))

/-- The emptiness gate of `train_model`: if the filtered mapping is empty
the function prints the abort diagnostic and returns before fitting;
otherwise training proceeds on the generated triples. -/
def trainSetup {α : Type _} (cleaned : List (List Char × List (List Char)))
    (features : List (List Char × α)) (tok : List (List Char × Nat))
    (maxLength vocabSize : Nat) :
    Except (List Char) (List (α × List Nat × List Nat)) :=
  let filtered := filteredForGenerator cleaned features
  if filtered.isEmpty then
    Except.error "No matching image features found for descriptions. Training aborted.".data
  else
    Except.ok (dataGeneratorAllTriples filtered features tok maxLength vocabSize)

/-- Keras `tokenizer.index_word.get(i, None)`: reverse lookup of a word
by its index in the fitted word index. -/
def indexWordLookup (tok : List (List Char × Nat)) (i : Nat) : Option (List Char) :=
  (tok.find? (fun p => p.2 = i)).map (fun p => p.1)

/-- Encoding of the partial caption `in_text` (kept as a word list; the
source keeps a space-joined string and re-splits it) through the fitted
word index, dropping out-of-vocabulary words. -/
def encodeWords (tok : List (List Char × Nat)) (ws : List (List Char)) : List Nat :=
  ws.filterMap (alookup tok)

/-- Why the greedy decoding loop of `generate_caption` stopped. -/
inductive StopReason where
  | endMarker
  | unknownIndex
  | capReached
deriving DecidableEq

/-- The loop body of `generate_caption` in `main.py`, with explicit fuel
(the source uses `for i in range(max_length)`).  Each step encodes and
pads the partial sequence, asks the model for the argmax index, looks the
index up in `index_word`, and either stops (unknown index, or the end
marker after appending it) or appends the word and continues.  Returns
the word list, the number of prediction steps performed, and the stop
reason. -/
def generateCaptionAux {α : Type _} (model : α → List Nat → Nat)
    (tok : List (List Char × Nat)) (photo : α) (maxLength : Nat) :
    Nat → List (List Char) → List (List Char) × Nat × StopReason
  | 0, acc => (acc, 0, StopReason.capReached)
  | fuel + 1, acc =>
    let seq := padSequence maxLength (encodeWords tok acc)
    let yhat := model photo seq
    match indexWordLookup tok yhat with
    | none => (acc, 1, StopReason.unknownIndex)
    | some w =>
      if w = "endseq".data then (acc ++ [w], 1, StopReason.endMarker)
      else
        let r := generateCaptionAux model tok photo maxLength fuel (acc ++ [w])
        (r.1, r.2.1 + 1, r.2.2)

/-- Model of `generate_caption`: greedy decoding starting from the start marker,
with at most `maxLength` prediction steps. -/
def generateCaption {α : Type _} (model : α → List Nat → Nat)
    (tok : List (List Char × Nat)) (photo : α) (maxLength : Nat) :
    List (List Char) × Nat × StopReason :=
  generateCaptionAux model tok photo maxLength maxLength ["startseq".data]

/-- Presence of the four persisted artifacts named by the spec at predict
time. -/
structure Artifacts where
  modelFile : Bool
  tokenizerFile : Bool
  maxLengthFile : Bool
  featuresFile : Bool
deriving DecidableEq

/-- The artifact-presence gate at the top of `predict_caption`: the model
weights, tokenizer and max-length files are each checked in turn and any
missing one aborts with its own diagnostic; the feature cache is never
checked (nor used) on the predict path. -/
def predictGate (a : Artifacts) : Except (List Char) Unit :=
  if !a.modelFile then Except.error "Error: Model not found. Please train the model first.".data
  else if !a.tokenizerFile then Except.error "Error: Tokenizer not found. Please train the model first.".data
  else if !a.maxLengthFile then Except.error "Error: Max length not found. Please train the model first.".data
  else Except.ok ()

/-- Whether `predict_caption` gets past the artifact checks. -/
def predictProceeds (a : Artifacts) : Bool :=
  (predictGate a).toBool

/-- Modelled from the spec's words for comparison (section 6: all four
persisted artifacts, the embedding cache included, must be present before
prediction is attempted). -/
def specPredictRequiresAll (a : Artifacts) : Bool :=
  a.modelFile && a.tokenizerFile && a.maxLengthFile && a.featuresFile

/-- Python heap objects involved in `clean_descriptions`: caption strings,
lists of references to caption strings, and the descriptions dict mapping
image-id keys to references to such lists. -/
inductive PyObj where
  | strO : List Char → PyObj
  | listO : List Nat → PyObj
  | dictO : List (List Char × Nat) → PyObj
deriving DecidableEq

/-- An object store: addresses are list positions, allocation appends. -/
abbrev Store := List PyObj

/-- Allocate the cleaned copy of the string at address `sa`
(Python: evaluating the cleaning pipeline builds a fresh string). -/
def cleanStrAt (s : Store) (sa : Nat) : Store × Nat :=
  match s[sa]? with
  | some (PyObj.strO cs) => (s ++ [PyObj.strO (cleanCaption cs)], s.length)
  | _ => (s ++ [PyObj.strO []], s.length)

/-- Build the fresh `cleaned_list` for the caption list at address `la`:
clean every caption string into a fresh string, collect the fresh
addresses into a fresh list object. -/
def cleanListAt (s : Store) (la : Nat) : Store × Nat :=
  match s[la]? with
  | some (PyObj.listO sas) =>
    let r := sas.foldl (fun (acc : Store × List Nat) sa =>
      let r2 := cleanStrAt acc.1 sa
      (r2.1, acc.2 ++ [r2.2])) (s, [])
    (r.1 ++ [PyObj.listO r.2], r.1.length)
  | _ => (s ++ [PyObj.listO []], s.length)

/-- Heap-level `DataLoader.clean_descriptions`: reads the dict at `da`,
builds a fresh cleaned list per image, and a fresh result dict; the input
dict, its lists and its strings are only read, never written. -/
def cleanDescriptionsH (s : Store) (da : Nat) : Store × Nat :=
  match s[da]? with
  | some (PyObj.dictO es) =>
    let r := es.foldl (fun (acc : Store × List (List Char × Nat)) e =>
      let r2 := cleanListAt acc.1 e.2
      (r2.1, acc.2 ++ [(e.1, r2.2)])) (s, [])
    (r.1 ++ [PyObj.dictO r.2], r.1.length)
  | _ => (s ++ [PyObj.dictO []], s.length)

/-- Store `s2` extends store `s1`: it appends newly allocated objects and
leaves every existing address untouched. -/
def storeGrows (s1 s2 : Store) : Prop :=
  ∃ t, s2 = s1 ++ t

theorem splitWsAux_word (w : List Char) (hw : ∀ c ∈ w, isWs c = false) :
    ∀ (cs acc : List Char),
      splitWsAux (w ++ cs) acc = splitWsAux cs (w.reverse ++ acc) := by
  induction w with
  | nil => intro cs acc; simp
  | cons c w ih =>
    intro cs acc
    have hc : isWs c = false := hw c (List.mem_cons_self c w)
    have hw' : ∀ d ∈ w, isWs d = false := fun d hd => hw d (List.mem_cons_of_mem c hd)
    simp [splitWsAux, hc, ih hw' cs (c :: acc)]

theorem splitWsAux_nil_word (w : List Char) (hne : w ≠ [])
    (hw : ∀ c ∈ w, isWs c = false) :
    splitWsAux w [] = [w] := by
  have h := splitWsAux_word w hw [] []
  simp only [List.append_nil] at h
  rw [h]
  have : w.reverse ≠ [] := by
    simpa using hne
  simp [splitWsAux, this]

theorem splitWs_word_space (w : List Char) (hne : w ≠ [])
    (hw : ∀ c ∈ w, isWs c = false) (rest : List Char) :
    splitWs (w ++ ' ' :: rest) = w :: splitWs rest := by
  have h := splitWsAux_word w hw (' ' :: rest) []
  have hrev : w.reverse ≠ [] := by simpa using hne
  simp only [splitWs, h, List.append_nil]
  simp [splitWsAux, isWs, hrev]

theorem mem_splitWsAux_final (w : List Char) (hne : w ≠ [])
    (hw : ∀ c ∈ w, isWs c = false) :
    ∀ (l acc : List Char), w ∈ splitWsAux (l ++ ' ' :: w) acc := by
  intro l
  induction l with
  | nil =>
    intro acc
    have hend : splitWsAux w [] = [w] := splitWsAux_nil_word w hne hw
    by_cases hacc : acc = [] <;>
      simp [splitWsAux, isWs, hacc, hend]
  | cons c l ih =>
    intro acc
    by_cases hc : isWs c
    · by_cases hacc : acc = [] <;>
        simp [splitWsAux, hc, hacc, ih]
    · simp [splitWsAux, hc, ih]

theorem mem_splitWs_final (w : List Char) (hne : w ≠ [])
    (hw : ∀ c ∈ w, isWs c = false) (l : List Char) :
    w ∈ splitWs (l ++ ' ' :: w) :=
  mem_splitWsAux_final w hne hw l []

theorem splitWs_joinWords (ws : List (List Char))
    (h : ∀ w ∈ ws, w ≠ [] ∧ ∀ c ∈ w, isWs c = false) :
    splitWs (joinWords ws) = ws := by
  induction ws with
  | nil => rfl
  | cons w vs ih =>
    cases vs with
    | nil =>
      have hw := h w (List.mem_cons_self w [])
      show splitWs w = [w]
      exact splitWsAux_nil_word w hw.1 hw.2
    | cons v ws' =>
      have hw := h w (List.mem_cons_self w (v :: ws'))
      show splitWs (w ++ ' ' :: joinWords (v :: ws')) = w :: v :: ws'
      rw [splitWs_word_space w hw.1 hw.2]
      rw [ih (fun u hu => h u (List.mem_cons_of_mem w hu))]

theorem charOfNat_toNat_small :
    ∀ m, m < 123 → 96 ≤ m → (Char.ofNat m).toNat = m := by decide

theorem isAlphaCh_not_ws {c : Char} (h : isAlphaCh c = true) : isWs c = false := by
  simp only [isAlphaCh, Bool.or_eq_true, Bool.and_eq_true, decide_eq_true_eq] at h
  simp only [isWs, Bool.or_eq_false_iff, decide_eq_false_iff_not]
  omega

theorem isAlphaCh_not_punct {c : Char} (h : isAlphaCh c = true) : isPunct c = false := by
  simp only [isAlphaCh, Bool.or_eq_true, Bool.and_eq_true, decide_eq_true_eq] at h
  simp only [isPunct, Bool.or_eq_false_iff, Bool.and_eq_false_iff,
    decide_eq_false_iff_not]
  omega

theorem pyLower_not_upper (c : Char) :
    ¬(65 ≤ (pyLower c).toNat ∧ (pyLower c).toNat ≤ 90) := by
  simp only [pyLower]
  by_cases h : (65 ≤ c.toNat && c.toNat ≤ 90) = true
  · rw [if_pos h]
    simp only [Bool.and_eq_true, decide_eq_true_eq] at h
    have hv : (Char.ofNat (c.toNat + 32)).toNat = c.toNat + 32 :=
      charOfNat_toNat_small (c.toNat + 32) (by omega) (by omega)
    rw [hv]
    omega
  · rw [if_neg h]
    simp only [Bool.and_eq_true, decide_eq_true_eq, not_and, Nat.not_le] at h
    omega

theorem pyLower_lower {c : Char} (h : 97 ≤ c.toNat ∧ c.toNat ≤ 122) :
    pyLower c = c := by
  rw [pyLower, if_neg]
  simp only [Bool.and_eq_true, decide_eq_true_eq, not_and, Nat.not_le]
  omega

theorem lower_isAlphaCh {c : Char} (h : 97 ≤ c.toNat ∧ c.toNat ≤ 122) :
    isAlphaCh c = true := by
  simp only [isAlphaCh, Bool.or_eq_true, Bool.and_eq_true, decide_eq_true_eq]
  omega

/-- Every word produced by cleaning is nonempty and consists solely of
lowercase ASCII letters. -/
theorem cleanWords_good (cs : List Char) :
    ∀ w ∈ cleanWords cs, w ≠ [] ∧ ∀ c ∈ w, 97 ≤ c.toNat ∧ c.toNat ≤ 122 := by
  intro w hw
  rw [cleanWords] at hw
  have hmem := (List.mem_filter.mp hw).1
  have halpha := (List.mem_filter.mp hw).2
  simp only [pyIsAlpha, Bool.and_eq_true, Bool.not_eq_true', List.isEmpty_eq_false,
    List.all_eq_true] at halpha
  rcases List.mem_map.mp hmem with ⟨u, hu, hwu⟩
  rcases List.mem_map.mp hu with ⟨v, _, huv⟩
  refine ⟨by simpa using halpha.1, ?_⟩
  intro c hc
  have hca : isAlphaCh c = true := halpha.2 c hc
  have hcu : c ∈ u := by
    rw [← hwu] at hc
    exact (List.mem_filter.mp hc).1
  have : ∃ c0, c0 ∈ v ∧ pyLower c0 = c := by
    rw [← huv] at hcu
    exact List.mem_map.mp hcu
  rcases this with ⟨c0, _, hc0⟩
  have hnup : ¬(65 ≤ c.toNat ∧ c.toNat ≤ 90) := hc0 ▸ pyLower_not_upper c0
  simp only [isAlphaCh, Bool.or_eq_true, Bool.and_eq_true, decide_eq_true_eq] at hca
  omega

theorem cleanWords_joinWords (ws : List (List Char))
    (h : ∀ w ∈ ws, w ≠ [] ∧ ∀ c ∈ w, 97 ≤ c.toNat ∧ c.toNat ≤ 122) :
    cleanWords (joinWords ws) = ws := by
  rw [cleanWords]
  rw [splitWs_joinWords ws (fun w hw =>
    ⟨(h w hw).1, fun c hc => isAlphaCh_not_ws (lower_isAlphaCh ((h w hw).2 c hc))⟩)]
  have h1 : ws.map (List.map pyLower) = ws := by
    apply List.map_congr_left ?_ |>.trans (List.map_id ws)
    intro w hw
    apply List.map_congr_left ?_ |>.trans (List.map_id w)
    intro c hc
    exact pyLower_lower ((h w hw).2 c hc)
  rw [h1]
  have h2 : ws.map (List.filter (fun c => !isPunct c)) = ws := by
    apply List.map_congr_left ?_ |>.trans (List.map_id ws)
    intro w hw
    apply List.filter_eq_self.mpr
    intro c hc
    simp only [Bool.not_eq_true']
    exact isAlphaCh_not_punct (lower_isAlphaCh ((h w hw).2 c hc))
  rw [h2]
  apply List.filter_eq_self.mpr
  intro w hw
  simp only [pyIsAlpha, Bool.and_eq_true, Bool.not_eq_true', List.isEmpty_eq_false,
    List.all_eq_true]
  exact ⟨by simpa using (h w hw).1,
    fun c hc => lower_isAlphaCh ((h w hw).2 c hc)⟩

theorem cleanCaption_idem (cs : List Char) :
    cleanCaption (cleanCaption cs) = cleanCaption cs := by
  rw [cleanCaption, cleanCaption, cleanWords_joinWords _ (cleanWords_good cs)]

/-- C5: caption normalization is idempotent: applying `clean_descriptions`
twice yields the same mapping as applying it once. -/
theorem c5_clean_descriptions_idempotent (d : List (List Char × List (List Char))) :
    cleanDescriptions (cleanDescriptions d) = cleanDescriptions d := by
  simp only [cleanDescriptions, List.map_map]
  apply List.map_congr_left
  intro p _
  simp only [Function.comp_apply, List.map_map]
  congr 1
  apply List.map_congr_left
  intro cs _
  exact cleanCaption_idem cs

theorem mem_foldl_vocabAdd (ws : List (List Char)) :
    ∀ (acc : List (List Char)) (w : List Char),
      w ∈ ws.foldl vocabAdd acc ↔ w ∈ acc ∨ w ∈ ws := by
  induction ws with
  | nil => intro acc w; simp
  | cons v vs ih =>
    intro acc w
    rw [List.foldl_cons, ih]
    by_cases hv : v ∈ acc
    · rw [vocabAdd, if_pos hv]
      simp only [List.mem_cons]
      constructor
      · rintro (h | h) <;> tauto
      · rintro (h | rfl | h) <;> tauto
    · rw [vocabAdd, if_neg hv]
      simp only [List.mem_append, List.mem_cons, List.mem_singleton]
      tauto

theorem mem_foldl_vocabLines (lines : List (List Char)) :
    ∀ (acc : List (List Char)) (w : List Char),
      w ∈ lines.foldl (fun acc line => (splitWs line).foldl vocabAdd acc) acc ↔
        w ∈ acc ∨ ∃ l ∈ lines, w ∈ splitWs l := by
  induction lines with
  | nil => intro acc w; simp
  | cons l ls ih =>
    intro acc w
    rw [List.foldl_cons, ih, mem_foldl_vocabAdd]
    simp only [List.mem_cons]
    constructor
    · rintro ((h | h) | ⟨u, hu, hwu⟩)
      · tauto
      · exact Or.inr ⟨l, Or.inl rfl, h⟩
      · exact Or.inr ⟨u, Or.inr hu, hwu⟩
    · rintro (h | ⟨u, (rfl | hu), hwu⟩)
      · tauto
      · tauto
      · exact Or.inr ⟨u, hu, hwu⟩

/-- C7: a word is in the vocabulary built by `to_vocabulary` if and only
if it occurs in some boundary-framed caption line of
`descriptions_to_lines`. -/
theorem c7_vocabulary_exact (d : List (List Char × List (List Char))) (w : List Char) :
    w ∈ toVocabulary d ↔ ∃ l ∈ descriptionsToLines d, w ∈ splitWs l := by
  rw [toVocabulary, mem_foldl_vocabLines]
  simp

theorem le_foldl_max (xs : List Nat) :
    ∀ a : Nat, a ≤ xs.foldl Nat.max a ∧ ∀ x ∈ xs, x ≤ xs.foldl Nat.max a := by
  induction xs with
  | nil => intro a; simp
  | cons x xs ih =>
    intro a
    rw [List.foldl_cons]
    refine ⟨le_trans (Nat.le_max_left a x) (ih (Nat.max a x)).1, ?_⟩
    intro y hy
    rcases List.mem_cons.mp hy with rfl | hy
    · exact le_trans (Nat.le_max_right a y) (ih (Nat.max a y)).1
    · exact (ih (Nat.max a x)).2 y hy

theorem foldl_max_attained (xs : List Nat) :
    ∀ a : Nat, xs.foldl Nat.max a = a ∨ xs.foldl Nat.max a ∈ xs := by
  induction xs with
  | nil => intro a; simp
  | cons x xs ih =>
    intro a
    rw [List.foldl_cons]
    rcases ih (Nat.max a x) with h | h
    · rcases Nat.le_total a x with hax | hxa
      · right
        have hx : Nat.max a x = x := Nat.max_eq_right hax
        rw [h, hx]
        exact List.mem_cons_self x xs
      · left
        have hx : Nat.max a x = a := Nat.max_eq_left hxa
        rw [h, hx]
    · exact Or.inr (List.mem_cons_of_mem x h)

/-- C9: `max_len` returns the maximum word count over the boundary-framed
caption lines (it bounds every line and is attained when any line
exists), and on the single caption a-b-c framed with the markers it
returns 5. -/
theorem c9_max_len (d : List (List Char × List (List Char))) :
    (∀ l ∈ descriptionsToLines d, (splitWs l).length ≤ maxLen d) ∧
    (descriptionsToLines d ≠ [] →
      ∃ l ∈ descriptionsToLines d, (splitWs l).length = maxLen d) ∧
    maxLen [("img".data, ["a b c".data])] = 5 := by
  refine ⟨?_, ?_, by decide⟩
  · intro l hl
    have hne : (descriptionsToLines d).isEmpty = false :=
      List.isEmpty_eq_false.mpr (List.ne_nil_of_mem hl)
    rw [maxLen]
    simp only [hne, Bool.false_eq_true, if_false]
    exact (le_foldl_max _ 0).2 _ (List.mem_map_of_mem _ hl)
  · intro hne
    have hne' : (descriptionsToLines d).isEmpty = false :=
      List.isEmpty_eq_false.mpr hne
    rw [maxLen]
    simp only [hne', Bool.false_eq_true, if_false]
    rcases foldl_max_attained ((descriptionsToLines d).map (fun l => (splitWs l).length)) 0
      with h | h
    · rcases List.exists_mem_of_ne_nil _ hne with ⟨l0, hl0⟩
      have hb := (le_foldl_max ((descriptionsToLines d).map (fun l => (splitWs l).length)) 0).2
        _ (List.mem_map_of_mem _ hl0)
      rw [h] at hb ⊢
      exact ⟨l0, hl0, Nat.le_antisymm hb (Nat.zero_le _)⟩
    · rcases List.mem_map.mp h with ⟨l0, hl0, hv⟩
      exact ⟨l0, hl0, hv⟩

/-- Witness for C9 at the concrete single-caption corpus. -/
theorem c9_max_len_witness :
    ∃ l ∈ descriptionsToLines [("img".data, ["a b c".data])],
      (splitWs l).length = maxLen [("img".data, ["a b c".data])] :=
  (c9_max_len [("img".data, ["a b c".data])]).2.1 (by decide)

theorem takeWhile_until_comma (a b : List Char) (ha : ',' ∉ a) :
    (a ++ ',' :: b).takeWhile (fun c => c ≠ ',') = a := by
  induction a with
  | nil => simp [List.takeWhile]
  | cons c a ih =>
    have hc : c ≠ ',' := fun h => ha (h ▸ List.mem_cons_self c a)
    rw [List.cons_append, List.takeWhile_cons, if_pos (by simp [hc]),
      ih (fun h => ha (List.mem_cons_of_mem c h))]

theorem dropWhile_until_comma (a b : List Char) (ha : ',' ∉ a) :
    (a ++ ',' :: b).dropWhile (fun c => c ≠ ',') = ',' :: b := by
  induction a with
  | nil => simp [List.dropWhile]
  | cons c a ih =>
    have hc : c ≠ ',' := fun h => ha (h ▸ List.mem_cons_self c a)
    simp only [List.cons_append, List.dropWhile_cons]
    rw [if_pos (by simp [hc])]
    exact ih (fun h => ha (List.mem_cons_of_mem c h))

theorem splitFirstComma_split (a b : List Char) (ha : ',' ∉ a) :
    splitFirstComma (a ++ ',' :: b) = some (a, b) := by
  rw [splitFirstComma,
    if_pos (List.mem_append.mpr (Or.inr (List.mem_cons_self ',' b)))]
  rw [takeWhile_until_comma a b ha, dropWhile_until_comma a b ha]
  rfl

/-- C4: after stripping, a caption line whose content is a-comma-b with no
comma in a is parsed into image id `strip a` and caption text `strip b`
(the whole remainder after the first comma, its internal commas kept); a
line with no comma is discarded leaving the mapping unchanged; a missing
captions file yields the empty mapping plus the diagnostic flag. -/
theorem c4_load_descriptions (l a b : List Char)
    (existing : List (List Char)) (m : List (List Char × List (List Char))) :
    (pyStrip l = a ++ ',' :: b → ',' ∉ a →
      processLine l = some (pyStrip a, pyStrip b)) ∧
    (',' ∉ pyStrip l → processLine l = none ∧ loadStep existing m l = m) ∧
    loadDescriptions none existing = ([], true) := by
  refine ⟨?_, ?_, rfl⟩
  · intro hsplit ha
    rw [processLine, hsplit, splitFirstComma_split a b ha]
  · intro hnc
    have hp : processLine l = none := by
      rw [processLine, splitFirstComma, if_neg hnc]
    exact ⟨hp, by rw [loadStep, hp]⟩

/-- Witness for C4: a line whose caption text itself contains a comma. -/
theorem c4_load_descriptions_witness :
    processLine "img1.jpg,A cat, big.".data =
      some ("img1.jpg".data, "A cat, big.".data) ∧
    processLine "no comma here".data = none := by
  constructor
  · have h := (c4_load_descriptions "img1.jpg,A cat, big.".data "img1.jpg".data
      "A cat, big.".data [] []).1 (by decide) (by decide)
    rw [h]
    decide
  · exact ((c4_load_descriptions "no comma here".data [] [] [] []).2.1 (by decide)).1

theorem padSequence_length (m : Nat) (s : List Nat) :
    (padSequence m s).length = m := by
  rw [padSequence]
  split
  · rw [List.length_drop]
    omega
  · rw [List.length_append, List.length_replicate]
    omega

/-- C1: for one image and one framed caption line, the generator encodes
the line to an index sequence of length n and emits exactly n-1 triples;
the j-th triple (prefix length j+1) is the image embedding, the prefix of
length j+1 left-padded to the fixed max length, and the one-hot vector of
the token at position j+1; every emitted padded prefix has exactly the
fixed max length. -/
theorem c1_generator_triples {α : Type _} (emb : α) (tok : List (List Char × Nat))
    (m v : Nat) (line : List Char) :
    ((captionTriples emb tok m v line).length = (encodeCaption tok line).length - 1) ∧
    (∀ t ∈ captionTriples emb tok m v line, t.2.1.length = m) ∧
    (∀ j, j + 1 < (encodeCaption tok line).length →
      (captionTriples emb tok m v line)[j]? =
        some (emb, padSequence m ((encodeCaption tok line).take (j + 1)),
          oneHot v ((encodeCaption tok line).getD (j + 1) 0))) := by
  refine ⟨?_, ?_, ?_⟩
  · rw [captionTriples, List.length_map, List.length_range']
  · intro t ht
    rw [captionTriples] at ht
    rcases List.mem_map.mp ht with ⟨i, _, hit⟩
    rw [← hit]
    exact padSequence_length m _
  · intro j hj
    rw [captionTriples, List.getElem?_map,
      List.getElem?_range' 1 1 (by omega : j < (encodeCaption tok line).length - 1)]
    have h1 : 1 + 1 * j = j + 1 := by omega
    rw [h1]
    rfl

/-- Witness for C1: the caption a-cat-sits framed to 5 tokens, every
token in the fitted vocabulary, yields exactly 4 triples, the first of
which pairs the embedding with the padded one-token prefix and the
one-hot of the second token. -/
theorem c1_generator_triples_witness :
    (captionTriples (0 : Nat)
      [("startseq".data, 1), ("a".data, 2), ("cat".data, 3), ("sits".data, 4),
        ("endseq".data, 5)] 7 6 (frameLine "a cat sits".data)).length = 4 ∧
    (captionTriples (0 : Nat)
      [("startseq".data, 1), ("a".data, 2), ("cat".data, 3), ("sits".data, 4),
        ("endseq".data, 5)] 7 6 (frameLine "a cat sits".data))[0]? =
      some (0, [0, 0, 0, 0, 0, 0, 1], [0, 0, 1, 0, 0, 0]) := by
  constructor
  · rw [(c1_generator_triples (0 : Nat)
      [("startseq".data, 1), ("a".data, 2), ("cat".data, 3), ("sits".data, 4),
        ("endseq".data, 5)] 7 6 (frameLine "a cat sits".data)).1]
    decide
  · rw [(c1_generator_triples (0 : Nat)
      [("startseq".data, 1), ("a".data, 2), ("cat".data, 3), ("sits".data, 4),
        ("endseq".data, 5)] 7 6 (frameLine "a cat sits".data)).2.2 0 (by decide)]
    decide

theorem generateCaptionAux_spec {α : Type _} (model : α → List Nat → Nat)
    (tok : List (List Char × Nat)) (photo : α) (m : Nat) :
    ∀ (fuel : Nat) (acc : List (List Char)),
      (generateCaptionAux model tok photo m fuel acc).2.1 ≤ fuel ∧
      ((generateCaptionAux model tok photo m fuel acc).2.2 = StopReason.capReached →
        (generateCaptionAux model tok photo m fuel acc).2.1 = fuel) ∧
      ((generateCaptionAux model tok photo m fuel acc).2.2 = StopReason.endMarker →
        "endseq".data ∈ (generateCaptionAux model tok photo m fuel acc).1) ∧
      ((∀ a : List (List Char), ∃ w,
          indexWordLookup tok (model photo (padSequence m (encodeWords tok a))) = some w ∧
          w ≠ "endseq".data) →
        (generateCaptionAux model tok photo m fuel acc).2.1 = fuel) := by
  intro fuel
  induction fuel with
  | zero =>
    intro acc
    refine ⟨Nat.le_refl 0, fun _ => rfl, fun h => ?_, fun _ => rfl⟩
    simp [generateCaptionAux] at h
  | succ fuel ih =>
    intro acc
    cases hlook : indexWordLookup tok (model photo (padSequence m (encodeWords tok acc))) with
    | none =>
      simp only [generateCaptionAux, hlook]
      refine ⟨by omega, fun h => by simp at h, fun h => by simp at h, fun hH => ?_⟩
      rcases hH acc with ⟨w, hw, _⟩
      rw [hlook] at hw
      exact absurd hw (by simp)
    | some w =>
      by_cases hw : w = "endseq".data
      · subst hw
        have hstep : generateCaptionAux model tok photo m (fuel + 1) acc =
            (acc ++ ["endseq".data], 1, StopReason.endMarker) := by
          simp [generateCaptionAux, hlook]
        rw [hstep]
        refine ⟨?_, fun h => by simp at h, fun _ => ?_, fun hH => ?_⟩
        · show 1 ≤ fuel + 1
          omega
        · show "endseq".data ∈ acc ++ ["endseq".data]
          exact List.mem_append.mpr (Or.inr (List.mem_cons_self _ []))
        · rcases hH acc with ⟨w', hw', hne⟩
          rw [hlook] at hw'
          exact absurd (Option.some.inj hw').symm hne
      · have hstep : generateCaptionAux model tok photo m (fuel + 1) acc =
            ((generateCaptionAux model tok photo m fuel (acc ++ [w])).1,
             (generateCaptionAux model tok photo m fuel (acc ++ [w])).2.1 + 1,
             (generateCaptionAux model tok photo m fuel (acc ++ [w])).2.2) := by
          simp only [generateCaptionAux, hlook]
          rw [if_neg hw]
        rw [hstep]
        rcases ih (acc ++ [w]) with ⟨h1, h2, h3, h4⟩
        refine ⟨?_, fun h => ?_, fun h => ?_, fun hH => ?_⟩
        · show (generateCaptionAux model tok photo m fuel (acc ++ [w])).2.1 + 1 ≤ fuel + 1
          omega
        · have hx := h2 h
          show (generateCaptionAux model tok photo m fuel (acc ++ [w])).2.1 + 1 = fuel + 1
          omega
        · exact h3 h
        · have hx := h4 hH
          show (generateCaptionAux model tok photo m fuel (acc ++ [w])).2.1 + 1 = fuel + 1
          omega

/-- Counterexample to C2 as stated: with a fitted vocabulary whose
index-to-word mapping has no entry for index 0 and a decoder whose argmax
is always 0, the loop stops after one step, strictly before the cap of 3,
yet the boundary-end marker was never predicted. -/
theorem c2_decoding_counterexample :
    (generateCaption (fun (_ : Unit) _ => 0)
      [("startseq".data, 1), ("endseq".data, 2)] () 3).2.1 < 3 ∧
    (generateCaption (fun (_ : Unit) _ => 0)
      [("startseq".data, 1), ("endseq".data, 2)] () 3).2.2 ≠ StopReason.endMarker ∧
    "endseq".data ∉ (generateCaption (fun (_ : Unit) _ => 0)
      [("startseq".data, 1), ("endseq".data, 2)] () 3).1 := by
  decide

/-- C2 (amended): the greedy decoding loop performs at most `max_length`
prediction steps; any stop before the cap is because the predicted token
was the boundary-end marker or because its argmax index has no entry in
the index-to-word mapping; when the loop stops on the end marker that
marker is in the produced sequence; and when every prediction resolves to
a known non-end word the loop runs exactly `max_length` steps. -/
theorem c2_decoding_termination {α : Type _} (model : α → List Nat → Nat)
    (tok : List (List Char × Nat)) (photo : α) (m : Nat) :
    (generateCaption model tok photo m).2.1 ≤ m ∧
    ((generateCaption model tok photo m).2.1 < m →
      (generateCaption model tok photo m).2.2 = StopReason.endMarker ∨
      (generateCaption model tok photo m).2.2 = StopReason.unknownIndex) ∧
    ((generateCaption model tok photo m).2.2 = StopReason.endMarker →
      "endseq".data ∈ (generateCaption model tok photo m).1) ∧
    ((∀ a : List (List Char), ∃ w,
        indexWordLookup tok (model photo (padSequence m (encodeWords tok a))) = some w ∧
        w ≠ "endseq".data) →
      (generateCaption model tok photo m).2.1 = m) := by
  rcases generateCaptionAux_spec model tok photo m m ["startseq".data]
    with ⟨h1, h2, h3, h4⟩
  refine ⟨h1, fun hlt => ?_, h3, h4⟩
  cases hr : (generateCaption model tok photo m).2.2 with
  | endMarker => exact Or.inl rfl
  | unknownIndex => exact Or.inr rfl
  | capReached =>
    have hx : (generateCaption model tok photo m).2.1 = m := h2 hr
    omega

/-- Witness for C2 (amended) at a concrete model that always predicts the
end marker: the loop stops before the cap with the end-marker reason. -/
theorem c2_decoding_termination_witness :
    (generateCaption (fun (_ : Unit) _ => 2)
      [("startseq".data, 1), ("endseq".data, 2)] () 4).2.2 = StopReason.endMarker ∨
    (generateCaption (fun (_ : Unit) _ => 2)
      [("startseq".data, 1), ("endseq".data, 2)] () 4).2.2 = StopReason.unknownIndex :=
  (c2_decoding_termination (fun (_ : Unit) _ => 2)
    [("startseq".data, 1), ("endseq".data, 2)] () 4).2.1 (by decide)

/-- C10: whenever the argmax index of a prediction step has no entry in
the vocabulary's index-to-word mapping, the decoding loop breaks
immediately with the partial sequence unchanged (no token appended), even
though fuel remains (the cap was not reached) and the end marker was not
emitted. -/
theorem c10_unknown_index_break {α : Type _} (model : α → List Nat → Nat)
    (tok : List (List Char × Nat)) (photo : α) (m fuel : Nat)
    (acc : List (List Char))
    (h : indexWordLookup tok (model photo (padSequence m (encodeWords tok acc))) = none) :
    generateCaptionAux model tok photo m (fuel + 1) acc =
      (acc, 1, StopReason.unknownIndex) := by
  simp only [generateCaptionAux, h]

/-- Witness for C10: index 0 (the reserved padding index) is absent from
the index-to-word mapping, so the loop breaks at once. -/
theorem c10_unknown_index_break_witness :
    generateCaptionAux (fun (_ : Unit) _ => 0) [("startseq".data, 1)] () 3 3
      ["startseq".data] = (["startseq".data], 1, StopReason.unknownIndex) :=
  c10_unknown_index_break (fun (_ : Unit) _ => 0) [("startseq".data, 1)] () 3 2
    ["startseq".data] (by decide)

/-- Counterexample to C8 as stated: with model weights, tokenizer and max
length present but the embedding cache file absent, `predict_caption`
passes its artifact checks and proceeds, so a missing persisted artifact
is not always fatal and not all four artifacts are required. -/
theorem c8_artifacts_counterexample :
    predictProceeds ⟨true, true, true, false⟩ = true ∧
    Artifacts.featuresFile ⟨true, true, true, false⟩ = false ∧
    specPredictRequiresAll ⟨true, true, true, false⟩ = false := by
  decide

/-- C8 (amended): at predict time exactly three persisted artifacts are
required - decoder weights, fitted vocabulary and max length; prediction
proceeds if and only if those three are present, and the presence or
absence of the embedding cache is never consulted on the predict path. -/
theorem c8_predict_gate (a : Artifacts) (b : Bool) :
    (predictProceeds a = true ↔
      (a.modelFile && a.tokenizerFile && a.maxLengthFile) = true) ∧
    predictProceeds { a with featuresFile := b } = predictProceeds a := by
  rcases a with ⟨mf, tf, lf, ff⟩
  cases mf <;> cases tf <;> cases lf <;> cases ff <;> cases b <;> decide

theorem splitWs_frameLine (d : List Char) :
    splitWs (frameLine d) = "startseq".data :: splitWs (d ++ ' ' :: "endseq".data) :=
  splitWs_word_space "startseq".data (by decide) (by decide) (d ++ ' ' :: "endseq".data)

theorem two_le_encode_frameLine (tok : List (List Char × Nat))
    (h2 : (alookup tok "startseq".data).isSome = true)
    (h3 : (alookup tok "endseq".data).isSome = true) (d : List Char) :
    2 ≤ (encodeCaption tok (frameLine d)).length := by
  rcases Option.isSome_iff_exists.mp h2 with ⟨i1, hi1⟩
  rcases Option.isSome_iff_exists.mp h3 with ⟨i2, hi2⟩
  rw [encodeCaption, splitWs_frameLine]
  rw [List.filterMap_cons, hi1]
  have hmem : "endseq".data ∈ splitWs (d ++ ' ' :: "endseq".data) :=
    mem_splitWs_final "endseq".data (by decide) (by decide) d
  have htail : i2 ∈ (splitWs (d ++ ' ' :: "endseq".data)).filterMap (alookup tok) :=
    List.mem_filterMap.mpr ⟨"endseq".data, hmem, hi2⟩
  have hlen := List.length_pos.mpr (List.ne_nil_of_mem htail)
  show 2 ≤ ((splitWs (d ++ ' ' :: "endseq".data)).filterMap (alookup tok)).length + 1
  omega

theorem captionTriples_ne_nil {α : Type _} (emb : α) (tok : List (List Char × Nat))
    (m v : Nat) (line : List Char)
    (h : 2 ≤ (encodeCaption tok line).length) :
    captionTriples emb tok m v line ≠ [] := by
  apply List.ne_nil_of_length_pos
  rw [captionTriples, List.length_map, List.length_range']
  omega

theorem insertAppend_ne_nil (m : List (List Char × List (List Char)))
    (k d : List Char) (h : ∀ p ∈ m, p.2 ≠ []) :
    ∀ p ∈ insertAppend m k d, p.2 ≠ [] := by
  intro p hp
  rw [insertAppend] at hp
  split at hp
  · rcases List.mem_map.mp hp with ⟨q, hq, hqp⟩
    by_cases hk : q.1 = k
    · rw [if_pos hk] at hqp
      rw [← hqp]
      simp
    · rw [if_neg hk] at hqp
      exact hqp ▸ h q hq
  · rcases List.mem_append.mp hp with hin | hnew
    · exact h p hin
    · rw [List.mem_singleton.mp hnew]
      simp

theorem loadStep_ne_nil (existing : List (List Char))
    (m : List (List Char × List (List Char))) (l : List Char)
    (h : ∀ p ∈ m, p.2 ≠ []) :
    ∀ p ∈ loadStep existing m l, p.2 ≠ [] := by
  rw [loadStep]
  cases processLine l with
  | none => exact h
  | some pr =>
    by_cases he : pr.1 ∈ existing
    · simp only [if_pos he]
      exact insertAppend_ne_nil m pr.1 pr.2 h
    · simp only [if_neg he]
      exact h

theorem loadFold_ne_nil (existing : List (List Char)) (ls : List (List Char)) :
    ∀ m : List (List Char × List (List Char)), (∀ p ∈ m, p.2 ≠ []) →
      ∀ p ∈ ls.foldl (loadStep existing) m, p.2 ≠ [] := by
  induction ls with
  | nil => intro m h; exact h
  | cons l ls ih =>
    intro m h
    rw [List.foldl_cons]
    exact ih (loadStep existing m l) (loadStep_ne_nil existing m l h)

/-- Every image of a mapping produced by `load_descriptions` carries at
least one caption, so the nonemptiness hypothesis of the train-path
theorem holds for every loaded corpus. -/
theorem loadDescriptions_lists_ne_nil (file : Option (List (List Char)))
    (existing : List (List Char)) :
    ∀ p ∈ (loadDescriptions file existing).1, p.2 ≠ [] := by
  cases file with
  | none => intro p hp; exact absurd hp (by simp [loadDescriptions])
  | some lines =>
    exact loadFold_ne_nil existing (lines.drop 1) [] (by intro p hp; simp at hp)

/-- C3: on the train path every image kept for the generator has a cached
embedding and a nonempty caption-line list (images without a cached
embedding are filtered out; images without captions never arise because
the loaded mapping gives each image at least one caption); and `train_model`
aborts with its diagnostic exactly when one full generator pass would
produce no training example at all. -/
theorem c3_train_filter_and_abort {α : Type _}
    (cleaned : List (List Char × List (List Char)))
    (features : List (List Char × α)) (tok : List (List Char × Nat)) (m v : Nat)
    (h1 : ∀ p ∈ cleaned, p.2 ≠ [])
    (h2 : (alookup tok "startseq".data).isSome = true)
    (h3 : (alookup tok "endseq".data).isSome = true) :
    (∀ q ∈ filteredForGenerator cleaned features,
      (alookup features q.1).isSome = true ∧ q.2 ≠ []) ∧
    ((∃ msg, trainSetup cleaned features tok m v = Except.error msg) ↔
      dataGeneratorAllTriples (filteredForGenerator cleaned features) features tok m v
        = []) := by
  have hq : ∀ q ∈ filteredForGenerator cleaned features,
      (alookup features q.1).isSome = true ∧ q.2 ≠ [] := by
    intro q hqmem
    rcases List.mem_map.mp hqmem with ⟨p, hpmem, rfl⟩
    have hpc := List.mem_filter.mp hpmem
    refine ⟨hpc.2, ?_⟩
    have hp2 : p.2 ≠ [] := h1 p hpc.1
    simp only [descriptionsToLines, List.flatMap_cons, List.flatMap_nil,
      List.append_nil]
    simpa using hp2
  refine ⟨hq, ?_, ?_⟩
  · rintro ⟨msg, hmsg⟩
    rw [trainSetup] at hmsg
    by_cases hemp : (filteredForGenerator cleaned features).isEmpty
    · rw [List.isEmpty_eq_true] at hemp
      rw [hemp]
      rfl
    · rw [if_neg hemp] at hmsg
      exact absurd hmsg (by simp)
  · intro hgen
    cases hfe : filteredForGenerator cleaned features with
    | nil =>
      refine ⟨"No matching image features found for descriptions. Training aborted.".data, ?_⟩
      simp [trainSetup, hfe]
    | cons q rest =>
      exfalso
      have hqprop := hq q (by rw [hfe]; exact List.mem_cons_self q rest)
      rcases Option.isSome_iff_exists.mp hqprop.1 with ⟨emb, hemb⟩
      have hlineshape : ∃ p ∈ cleaned, q = (p.1, p.2.map frameLine) := by
        have : q ∈ filteredForGenerator cleaned features := by
          rw [hfe]; exact List.mem_cons_self q rest
        rcases List.mem_map.mp this with ⟨p, hpmem, hqp⟩
        refine ⟨p, (List.mem_filter.mp hpmem).1, ?_⟩
        rw [← hqp]
        simp [descriptionsToLines]
      rcases hlineshape with ⟨p, hpmem, hqshape⟩
      have hp2 : p.2 ≠ [] := h1 p hpmem
      cases hp2c : p.2 with
      | nil => exact hp2 hp2c
      | cons d0 ds =>
        have hq2 : q.2 = frameLine d0 :: ds.map frameLine := by
          rw [hqshape]
          simp [hp2c]
        have hflat : dataGeneratorAllTriples (q :: rest) features tok m v =
            q.2.flatMap (captionTriples emb tok m v) ++
              dataGeneratorAllTriples rest features tok m v := by
          simp [dataGeneratorAllTriples, hemb]
        rw [hfe, hflat] at hgen
        rcases List.append_eq_nil.mp hgen with ⟨hleft, _⟩
        rw [hq2, List.flatMap_cons] at hleft
        rcases List.append_eq_nil.mp hleft with ⟨hcap, _⟩
        exact captionTriples_ne_nil emb tok m v (frameLine d0)
          (two_le_encode_frameLine tok h2 h3 d0) hcap

/-- Witness for C3 at a concrete corpus: one image with a feature vector
and one without; the latter is excluded, the former keeps its caption,
and training does not abort. -/
theorem c3_train_filter_and_abort_witness :
    (∀ q ∈ filteredForGenerator
        [("img1".data, ["a cat".data]), ("img2".data, ["dog".data])]
        [("img1".data, (0 : Nat))],
      (alookup [("img1".data, (0 : Nat))] q.1).isSome = true ∧ q.2 ≠ []) ∧
    ((∃ msg, trainSetup
        [("img1".data, ["a cat".data]), ("img2".data, ["dog".data])]
        [("img1".data, (0 : Nat))]
        [("startseq".data, 1), ("endseq".data, 2), ("a".data, 3), ("cat".data, 4)]
        5 5 = Except.error msg) ↔
      dataGeneratorAllTriples
        (filteredForGenerator
          [("img1".data, ["a cat".data]), ("img2".data, ["dog".data])]
          [("img1".data, (0 : Nat))])
        [("img1".data, (0 : Nat))]
        [("startseq".data, 1), ("endseq".data, 2), ("a".data, 3), ("cat".data, 4)]
        5 5 = []) :=
  c3_train_filter_and_abort
    [("img1".data, ["a cat".data]), ("img2".data, ["dog".data])]
    [("img1".data, (0 : Nat))]
    [("startseq".data, 1), ("endseq".data, 2), ("a".data, 3), ("cat".data, 4)]
    5 5 (by decide) (by decide) (by decide)

theorem storeGrows_trans {s1 s2 s3 : Store} (h12 : storeGrows s1 s2)
    (h23 : storeGrows s2 s3) : storeGrows s1 s3 := by
  rcases h12 with ⟨t1, rfl⟩
  rcases h23 with ⟨t2, rfl⟩
  exact ⟨t1 ++ t2, by rw [List.append_assoc]⟩

theorem storeGrows_length {s1 s2 : Store} (h : storeGrows s1 s2) :
    s1.length ≤ s2.length := by
  rcases h with ⟨t, rfl⟩
  rw [List.length_append]
  omega

theorem storeGrows_getElem {s1 s2 : Store} (h : storeGrows s1 s2)
    (i : Nat) (hi : i < s1.length) : s2[i]? = s1[i]? := by
  rcases h with ⟨t, rfl⟩
  exact List.getElem?_append_left hi

theorem cleanStrAt_grows (s : Store) (sa : Nat) :
    storeGrows s (cleanStrAt s sa).1 ∧ (cleanStrAt s sa).2 = s.length := by
  unfold cleanStrAt
  cases h : s[sa]? with
  | none => exact ⟨⟨[PyObj.strO []], rfl⟩, rfl⟩
  | some o =>
    cases o with
    | strO cs => exact ⟨⟨[PyObj.strO (cleanCaption cs)], rfl⟩, rfl⟩
    | listO a => exact ⟨⟨[PyObj.strO []], rfl⟩, rfl⟩
    | dictO e => exact ⟨⟨[PyObj.strO []], rfl⟩, rfl⟩

theorem strFold_grows (sas : List Nat) :
    ∀ init : Store × List Nat,
      storeGrows init.1 ((sas.foldl (fun (acc : Store × List Nat) sa =>
        let r2 := cleanStrAt acc.1 sa
        (r2.1, acc.2 ++ [r2.2])) init).1) := by
  induction sas with
  | nil => intro init; exact ⟨[], by simp⟩
  | cons sa sas ih =>
    intro init
    rw [List.foldl_cons]
    exact storeGrows_trans (cleanStrAt_grows init.1 sa).1
      (ih ((cleanStrAt init.1 sa).1, init.2 ++ [(cleanStrAt init.1 sa).2]))

theorem cleanListAt_grows (s : Store) (la : Nat) :
    storeGrows s (cleanListAt s la).1 ∧ s.length ≤ (cleanListAt s la).2 := by
  unfold cleanListAt
  cases h : s[la]? with
  | none => exact ⟨⟨[PyObj.listO []], rfl⟩, Nat.le_refl _⟩
  | some o =>
    cases o with
    | strO cs => exact ⟨⟨[PyObj.listO []], rfl⟩, Nat.le_refl _⟩
    | dictO e => exact ⟨⟨[PyObj.listO []], rfl⟩, Nat.le_refl _⟩
    | listO sas =>
      have hg := strFold_grows sas (s, [])
      refine ⟨storeGrows_trans hg ⟨_, rfl⟩, storeGrows_length hg⟩

theorem dictFold_grows (es : List (List Char × Nat)) :
    ∀ init : Store × List (List Char × Nat),
      storeGrows init.1 ((es.foldl (fun (acc : Store × List (List Char × Nat)) e =>
        let r2 := cleanListAt acc.1 e.2
        (r2.1, acc.2 ++ [(e.1, r2.2)])) init).1) := by
  induction es with
  | nil => intro init; exact ⟨[], by simp⟩
  | cons e es ih =>
    intro init
    rw [List.foldl_cons]
    exact storeGrows_trans (cleanListAt_grows init.1 e.2).1
      (ih ((cleanListAt init.1 e.2).1, init.2 ++ [(e.1, (cleanListAt init.1 e.2).2)]))

theorem cleanDescriptionsH_grows (s : Store) (da : Nat) :
    storeGrows s (cleanDescriptionsH s da).1 ∧
    s.length ≤ (cleanDescriptionsH s da).2 ∧
    (cleanDescriptionsH s da).2 < (cleanDescriptionsH s da).1.length := by
  unfold cleanDescriptionsH
  cases h : s[da]? with
  | none =>
    refine ⟨⟨[PyObj.dictO []], rfl⟩, Nat.le_refl _, ?_⟩
    rw [List.length_append]
    simp
  | some o =>
    cases o with
    | strO cs =>
      refine ⟨⟨[PyObj.dictO []], rfl⟩, Nat.le_refl _, ?_⟩
      rw [List.length_append]
      simp
    | listO a =>
      refine ⟨⟨[PyObj.dictO []], rfl⟩, Nat.le_refl _, ?_⟩
      rw [List.length_append]
      simp
    | dictO es =>
      have hg := dictFold_grows es (s, [])
      refine ⟨storeGrows_trans hg ⟨_, rfl⟩, storeGrows_length hg, ?_⟩
      rw [List.length_append]
      simp

/-- C6: the heap-level `clean_descriptions` never mutates its input: every
address that existed in the store before the call still holds exactly the
same object afterwards (so the input dict, its caption lists and caption
strings are unchanged), and the returned mapping lives at a freshly
allocated address, not at any pre-existing one. -/
theorem c6_clean_descriptions_no_mutation (s : Store) (da : Nat) :
    (∀ i, i < s.length → (cleanDescriptionsH s da).1[i]? = s[i]?) ∧
    s.length ≤ (cleanDescriptionsH s da).2 ∧
    (cleanDescriptionsH s da).2 < (cleanDescriptionsH s da).1.length := by
  rcases cleanDescriptionsH_grows s da with ⟨hg, hfresh, hin⟩
  exact ⟨fun i hi => storeGrows_getElem hg i hi, hfresh, hin⟩

/-- Witness for C6 at a concrete three-object store (one caption string,
one caption list, one dict): the pre-existing objects are untouched. -/
theorem c6_clean_descriptions_no_mutation_witness :
    (cleanDescriptionsH
      [PyObj.strO "Hi There!".data, PyObj.listO [0], PyObj.dictO [("img".data, 1)]]
      2).1[1]? =
      (([PyObj.strO "Hi There!".data, PyObj.listO [0],
        PyObj.dictO [("img".data, 1)]] : Store))[1]? :=
  (c6_clean_descriptions_no_mutation
    [PyObj.strO "Hi There!".data, PyObj.listO [0], PyObj.dictO [("img".data, 1)]]
    2).1 1 (by decide)

end ImgCap
